import Mathlib

/-!
# The helm3 mixin: building and running the `helm3 install` command

A shallow embedding of `pkg/helm3/install.go`.

* Go strings are modelled as lists of characters (`GoString`), one character
  per byte of the Go string; the tokens of the command line are written as
  `"--set".toList`.
* The packages `strings` and `sort` of the Go standard library are modelled by
  the functions of the namespaces `strings` and `sort` below, restricted to the
  shapes in which `install.go` calls them.
* A Go `map[string]string` is modelled by the list of its entries in the order
  in which `range` happens to enumerate them; the keys of a map are pairwise
  distinct (`UniqueKeys`).
* `Mixin.Install` talks to collaborators that are not part of `install.go`
  (payload access, the cluster client, the YAML decoder, the process, the output
  collector); they are the fields of `World`, and `Install` returns the list of
  the effects it performed together with its result.
-/

namespace Helm3

/-- A Go string, as the list of its bytes. -/
abbrev GoString := List Char

/-- The byte of the double quote. -/
def quoteChar : Char := '"'

/-- The Go string literal that holds one double quote, the second argument of
the calls of `HasPrefix` and `HasSuffix` in `install.go`. -/
def quote : GoString := [quoteChar]

/-- The Go string literal that holds one backslash. -/
def backslash : GoString := ['\\']

/-! ## The `strings` package -/

namespace strings

/-- Go `strings.HasPrefix(s, pre)`. -/
def HasPrefix (s pre : GoString) : Bool := pre.isPrefixOf s

/-- Go `strings.HasSuffix(s, suf)`. -/
def HasSuffix (s suf : GoString) : Bool := suf.isSuffixOf s

/-- Go `strings.Split(s, sep)` for a separator `sep` of one byte: the substrings
of `s` between the occurrences of `sep`; one more substring than there are
occurrences, so the empty string splits into one empty substring. -/
def Split : GoString → Char → List GoString
  | [], _ => [[]]
  | c :: cs, sep =>
    if c = sep then [] :: Split cs sep
    else
      match Split cs sep with
      | [] => [[c]]
      | seg :: segs => (c :: seg) :: segs

/-- Go `strings.Join(elems, sep)`. -/
def Join : List GoString → GoString → GoString
  | [], _ => []
  | [a], _ => a
  | a :: b :: rest, sep => a ++ sep ++ Join (b :: rest) sep

/-- Go `strings.Replace(s, old, new, -1)` for an `old` of one byte: every
occurrence of `old` in `s` is replaced by `new`. -/
def Replace (s : GoString) (old : Char) (new : GoString) : GoString :=
  s.flatMap (fun c => if c = old then new else [c])

end strings

/-! ## The `sort` package -/

/-- Go's `<` on strings: bytewise lexicographic order, a proper prefix being
smaller. -/
def strLess : GoString → GoString → Bool
  | [], [] => false
  | [], _ :: _ => true
  | _ :: _, [] => false
  | a :: as, b :: bs =>
    if a < b then true
    else if b < a then false
    else strLess as bs

/-- Go's `<=` on strings, as a relation: `b` is not smaller than `a`. -/
def strLe (a b : GoString) : Prop := strLess b a = false

instance strLe_decidable : DecidableRel strLe :=
  fun a b => inferInstanceAs (Decidable (strLess b a = false))

namespace sort

/-- Go `sort.Strings(x)`: `x` rearranged in increasing order. Equal strings are
indistinguishable, so the result does not depend on the sorting algorithm
(`sort_Strings_unique`); insertion sort is used here. -/
def Strings (x : List GoString) : List GoString := x.insertionSort strLe

end sort

/-! ## Data model -/

/-- A Go `map[string]string`: its entries, in the order of one enumeration. -/
abbrev GoMap := List (GoString × GoString)

/-- The keys of a map in the order `for k := range m` yields them. -/
def GoMap.keys (m : GoMap) : List GoString := m.map Prod.fst

/-- The Go expression `m[k]`: the value stored under `k`, the empty string when
`k` is not a key of `m`. -/
def GoMap.index (m : GoMap) (k : GoString) : GoString := (m.lookup k).getD []

/-- Well-formedness of a `GoMap`: a Go map holds each key once. -/
def UniqueKeys (m : GoMap) : Prop := m.keys.Nodup

instance UniqueKeys_decidable (m : GoMap) : Decidable (UniqueKeys m) :=
  inferInstanceAs (Decidable m.keys.Nodup)

/-- Modelled from the spec: the output bindings of the embedded `Step` struct,
which is declared outside `install.go`; the spec describes them as a mapping
from an output name to the description of its source. -/
abbrev Outputs := List (GoString × GoString)

/-- The struct `InstallStep` with its embedded `InstallArguments` and `Step`. -/
structure InstallStep where
  Outputs : Outputs
  Namespace : GoString
  Name : GoString
  Chart : GoString
  Version : GoString
  Replace : Bool
  Set : GoMap
  Values : List GoString
  Devel : Bool
  UpSert : Bool
  Wait : Bool
  deriving DecidableEq

/-- The struct `InstallAction`. -/
structure InstallAction where
  Steps : List InstallStep
  deriving DecidableEq

/-- The fields of `exec.Cmd` that `install.go` reads and writes, `Path` and
`Args`; the streams `Stdout` and `Stderr` only forward what the process writes. -/
structure Cmd where
  Path : GoString
  Args : List GoString
  deriving DecidableEq

/-! ## `HandleSettingChartValuesForInstall` -/

/-- One iteration of the loop over `keySequences` (lines 132-151): the state is
the flag `complexKey` and the slice `keyAccumulator`. -/
def keySequenceStep (st : Bool × List GoString) (ks : GoString) : Bool × List GoString :=
  let complexKey := st.1
  let keyAccumulator := st.2
  if strings.HasPrefix ks quote then
    (true, keyAccumulator ++ [ks ++ backslash])
  else if !strings.HasPrefix ks quote && !strings.HasSuffix ks quote && complexKey then
    (complexKey, keyAccumulator ++ [strings.Replace ks quoteChar quote ++ backslash])
  else if strings.HasSuffix ks quote && complexKey then
    (false, keyAccumulator ++ [strings.Replace ks quoteChar quote])
  else
    (complexKey, keyAccumulator ++ [ks])

/-- The key escaper, lines 129-153: the first operand of the `Sprintf` of line
153, computed from the key `k`. -/
def escapeKey (k : GoString) : GoString :=
  let keySequences := strings.Split k '.'
  let st := keySequences.foldl keySequenceStep (false, [])
  strings.Join st.2 ".".toList

/-- The two tokens appended for the key `k` by line 153. -/
def setPair (set : GoMap) (k : GoString) : List GoString :=
  ["--set".toList, escapeKey k ++ "=".toList ++ set.index k]

/-- The function `HandleSettingChartValuesForInstall`: the value it returns,
which is also the final `cmd.Args`. -/
def HandleSettingChartValuesForInstall (step : InstallStep) (cmd : Cmd) : List GoString :=
  let setKeys := sort.Strings step.Set.keys
  setKeys.foldl (fun args k => args ++ setPair step.Set k) cmd.Args

/-! ## The argument builder of `Install` (lines 58-91) -/

/-- The value of `cmd.Args` after line 91, for the command `cmd` returned by
`m.NewCommand` and the decoded step. -/
def installArgs (step : InstallStep) (cmd : Cmd) : List GoString :=
  let args := cmd.Args
  let args :=
    if step.UpSert then args ++ ["upgrade".toList, "--install".toList, step.Name, step.Chart]
    else args ++ ["install".toList, step.Name, step.Chart]
  let args := if step.Namespace ≠ [] then args ++ ["--namespace".toList, step.Namespace] else args
  let args := if step.Version ≠ [] then args ++ ["--version".toList, step.Version] else args
  let args := if step.Replace then args ++ ["--replace".toList] else args
  let args := if step.Wait then args ++ ["--wait".toList] else args
  let args := if step.Devel then args ++ ["--devel".toList] else args
  let args := step.Values.foldl (fun args v => args ++ ["--values".toList, v]) args
  HandleSettingChartValuesForInstall step { cmd with Args := args }

/-! ## `Mixin.Install` -/

/-- A Go `error`, by the text `Error()` returns for it. -/
abbrev GoError := GoString

/-- Modelled from the spec: the cluster client handle returned by
`m.getKubernetesClient`, declared outside `install.go`; only its identity
matters here. -/
abbrev KubeClient := Nat

/-- The collaborators of `Install` that `install.go` calls and does not define:
each field gives what the call returns. An `Option GoError` is the returned
`error`, `none` for `nil`. -/
structure World where
  getPayloadData : Except GoError GoString
  getKubernetesClient : GoString → Except GoError KubeClient
  Unmarshal : GoString → Except GoError InstallAction
  NewCommand : GoString → Cmd
  Start : Cmd → Option GoError
  Wait : Cmd → Option GoError
  handleOutputs : KubeClient → GoString → Outputs → Option GoError

/-- The effects of `Install`: the calls to its collaborators and the line
written to `m.Out`, each with its arguments. -/
inductive Effect where
  | getPayloadData
  | getKubernetesClient (path : GoString)
  | Unmarshal (payload : GoString)
  | NewCommand (name : GoString)
  | Fprintln (line : GoString)
  | Start (cmd : Cmd)
  | Wait (cmd : Cmd)
  | handleOutputs (client : KubeClient) (ns : GoString) (outputs : Outputs)
  deriving DecidableEq

/-- The argument of `m.getKubernetesClient` in line 43. -/
def kubeConfig : GoString := "/root/.kube/config".toList

/-- The message of `errors.Wrap(err, msg)`. -/
def Wrap (err : GoError) (msg : GoString) : GoError := msg ++ ": ".toList ++ err

/-- The message of the error of line 54, `%d` printing `n` in decimal. -/
def singleStepError (n : Nat) : GoError :=
  "expected a single step, but got ".toList ++ Nat.toDigits 10 n

/-- The string `prettyCmd` of line 97. -/
def prettyCmd (cmd : Cmd) : GoString :=
  cmd.Path ++ " ".toList ++ strings.Join cmd.Args " ".toList

/-- The message of the error of line 104. -/
def startError (pretty : GoString) (err : GoError) : GoError :=
  "could not execute command, ".toList ++ pretty ++ ": ".toList ++ err

/-- The method `Mixin.Install`, run against the collaborators `w`: the effects
it performed, in order, and the error it returns (`none` for `nil`). The
variable `t` is the list of the effects performed so far; what `Fprintln` writes
is the line followed by a newline. -/
def Install (w : World) : List Effect × Option GoError :=
  let t := [Effect.getPayloadData]
  match w.getPayloadData with
  | .error err => (t, some err)
  | .ok payload =>
    let t := t ++ [Effect.getKubernetesClient kubeConfig]
    match w.getKubernetesClient kubeConfig with
    | .error err => (t, some (Wrap err "couldn't get kubernetes client".toList))
    | .ok kubeClient =>
      let t := t ++ [Effect.Unmarshal payload]
      match w.Unmarshal payload with
      | .error err => (t, some err)
      | .ok action =>
        if h : action.Steps.length ≠ 1 then
          (t, some (singleStepError action.Steps.length))
        else
          let step := action.Steps[0]
          let t := t ++ [Effect.NewCommand "helm3".toList]
          let cmd := w.NewCommand "helm3".toList
          let cmd := { cmd with Args := installArgs step cmd }
          let pretty := prettyCmd cmd
          let t := t ++ [Effect.Fprintln (pretty ++ "\n".toList)]
          let t := t ++ [Effect.Start cmd]
          match w.Start cmd with
          | some err => (t, some (startError pretty err))
          | none =>
            let t := t ++ [Effect.Wait cmd]
            match w.Wait cmd with
            | some err => (t, some err)
            | none =>
              let t := t ++ [Effect.handleOutputs kubeClient step.Namespace step.Outputs]
              (t, w.handleOutputs kubeClient step.Namespace step.Outputs)

/-! ## The stages of `Install` -/

/-- The command `Install` starts for `step`: the command of `m.NewCommand` with
the arguments of `installArgs`. -/
def builtCmd (w : World) (step : InstallStep) : Cmd :=
  { w.NewCommand "helm3".toList with Args := installArgs step (w.NewCommand "helm3".toList) }

/-- The effects of lines 38-49. -/
def decodeEffects (payload : GoString) : List Effect :=
  [Effect.getPayloadData, Effect.getKubernetesClient kubeConfig, Effect.Unmarshal payload]

/-- The effects of lines 58-101. -/
def launchEffects (w : World) (step : InstallStep) : List Effect :=
  [Effect.NewCommand "helm3".toList,
   Effect.Fprintln (prettyCmd (builtCmd w step) ++ "\n".toList),
   Effect.Start (builtCmd w step)]

/-- What lines 101-112 return. -/
def afterLaunch (w : World) (kubeClient : KubeClient) (step : InstallStep) (t : List Effect) :
    List Effect × Option GoError :=
  match w.Start (builtCmd w step) with
  | some err => (t, some (startError (prettyCmd (builtCmd w step)) err))
  | none =>
    match w.Wait (builtCmd w step) with
    | some err => (t ++ [Effect.Wait (builtCmd w step)], some err)
    | none =>
      (t ++ [Effect.Wait (builtCmd w step),
             Effect.handleOutputs kubeClient step.Namespace step.Outputs],
        w.handleOutputs kubeClient step.Namespace step.Outputs)

/-! ## The sections of the built argument list, as the spec lists them -/

/-- The base verb section: the tokens appended by lines 60-65. -/
def verbTokens (step : InstallStep) : List GoString :=
  if step.UpSert then ["upgrade".toList, "--install".toList, step.Name, step.Chart]
  else ["install".toList, step.Name, step.Chart]

/-- The option section: the tokens appended by lines 67-85. -/
def flagTokens (step : InstallStep) : List GoString :=
  (if step.Namespace = [] then [] else ["--namespace".toList, step.Namespace])
    ++ (if step.Version = [] then [] else ["--version".toList, step.Version])
    ++ (if step.Replace then ["--replace".toList] else [])
    ++ (if step.Wait then ["--wait".toList] else [])
    ++ (if step.Devel then ["--devel".toList] else [])

/-- The value-file section: the tokens appended by lines 87-89. -/
def valuesTokens (step : InstallStep) : List GoString :=
  step.Values.flatMap (fun v => ["--values".toList, v])

/-- The override section: one pair per key, the keys in the order of
`sort.Strings`. -/
def setTokens (step : InstallStep) : List GoString :=
  (sort.Strings step.Set.keys).flatMap (setPair step.Set)

/-! ## Concrete inputs -/

/-- The command `exec.Command` makes for the name `helm3`. -/
def helmCmd : Cmd := { Path := "helm3".toList, Args := ["helm3".toList] }

/-- A step that sets the release name and the chart only. -/
def bareStep : InstallStep :=
  { Outputs := [], Namespace := [], Name := "myrelease".toList, Chart := "mychart".toList,
    Version := [], Replace := false, Set := [], Values := [], Devel := false,
    UpSert := false, Wait := false }

/-- A step with a namespace, a version, two value files, two overrides
enumerated in descending key order, and the wait flag. -/
def fullStep : InstallStep :=
  { bareStep with
    Namespace := "myns".toList
    Version := "1.0.0".toList
    Set := [("foo".toList, "bar".toList), ("baz".toList, "qux".toList)]
    Values := ["f1.yaml".toList, "f2.yaml".toList]
    Wait := true }

/-- The override key of the spec's example: a quoted segment holding a dot,
followed by a plain segment. -/
def quotedKey : GoString := "\"a.b\".c".toList

/-- A step whose only override maps `quotedKey` to `v`. -/
def quotedKeyStep (v : GoString) : InstallStep := { bareStep with Set := [(quotedKey, v)] }

/-- A step with an empty namespace whose release name is the text of the
namespace flag. -/
def namespaceNamedStep : InstallStep := { bareStep with Name := "--namespace".toList }

/-- The step `fullStep` without its namespace. -/
def fullStepNoNamespace : InstallStep := { fullStep with Namespace := [] }

/-- Collaborators that deliver the decoded `action`, make the command of
`exec.Command`, and answer `Start`, `Wait` and `handleOutputs` with the given
errors. -/
def worldOf (action : InstallAction) (start wait outputs : Option GoError) : World :=
  { getPayloadData := .ok "install: ...".toList
    getKubernetesClient := fun _ => .ok 0
    Unmarshal := fun _ => .ok action
    NewCommand := fun name => { Path := name, Args := [name] }
    Start := fun _ => start
    Wait := fun _ => wait
    handleOutputs := fun _ _ _ => outputs }

/-- The payload decodes to two steps. -/
def twoStepWorld : World := worldOf { Steps := [bareStep, fullStep] } none none none

/-- The payload decodes to one step; the process starts and exits with status 1. -/
def exitWorld : World :=
  worldOf { Steps := [bareStep] } none (some "exit status 1".toList) none

/-- The payload decodes to one step; the process succeeds and the outputs are
collected without error. -/
def successWorld : World := worldOf { Steps := [bareStep] } none none none

/-- The payload decodes to one step; the process cannot be started. -/
def launchFailWorld : World :=
  worldOf { Steps := [bareStep] } (some "exec: helm3: executable file not found".toList)
    none none

/-- The overrides of `fullStep`, enumerated in ascending key order. -/
def fullStepSetAscending : GoMap :=
  [("baz".toList, "qux".toList), ("foo".toList, "bar".toList)]

/-- A key whose quoted segment has no dot inside: the segment opens and closes
the quotes. -/
def selfClosedKey : GoString := "\"a\".b".toList

/-- The key of the spec's example of an unterminated quote. -/
def openQuoteKey : GoString := "\"a.b.c".toList

/-! ## The key escaper, segment by segment -/

/-- The value of `complexKey` after the iteration for the segment `ks`, entered
with the value `complexKey` (`keySequenceStep_eq`). -/
def runOpen (complexKey : Bool) (ks : GoString) : Bool :=
  strings.HasPrefix ks quote || (complexKey && !strings.HasSuffix ks quote)

/-- The element appended to `keyAccumulator` for the segment `ks`
(`keySequenceStep_eq`). -/
def escapedSegment (complexKey : Bool) (ks : GoString) : GoString :=
  if runOpen complexKey ks then ks ++ backslash else ks

/-- The elements appended to `keyAccumulator` for the segments `segs`, the loop
entered with the value `complexKey` (`foldl_keySequenceStep`). -/
def escapedSegments : Bool → List GoString → List GoString
  | _, [] => []
  | complexKey, ks :: rest =>
    escapedSegment complexKey ks :: escapedSegments (runOpen complexKey ks) rest

/-! ## Loops as concatenations -/

theorem foldl_append_eq_flatMap {α : Type} (f : α → List GoString) (l : List α)
    (init : List GoString) :
    l.foldl (fun args x => args ++ f x) init = init ++ l.flatMap f := by
  induction l generalizing init with
  | nil => simp
  | cons x xs ih => simp [List.foldl_cons, ih, List.flatMap_cons, List.append_assoc]

theorem handleSetting_eq (step : InstallStep) (cmd : Cmd) :
    HandleSettingChartValuesForInstall step cmd
      = cmd.Args ++ (sort.Strings step.Set.keys).flatMap (setPair step.Set) := by
  unfold HandleSettingChartValuesForInstall
  exact foldl_append_eq_flatMap _ _ _

theorem installArgs_eq (step : InstallStep) (cmd : Cmd) :
    installArgs step cmd
      = cmd.Args ++ verbTokens step ++ flagTokens step
          ++ step.Values.flatMap (fun v => ["--values".toList, v])
          ++ (sort.Strings step.Set.keys).flatMap (setPair step.Set) := by
  unfold installArgs
  simp only [handleSetting_eq, foldl_append_eq_flatMap, verbTokens, flagTokens]
  cases step.UpSert <;> cases step.Replace <;> cases step.Wait <;> cases step.Devel <;>
    by_cases hn : step.Namespace = [] <;> by_cases hv : step.Version = [] <;>
    simp [hn, hv]

/-! ## The order of `sort.Strings` -/

theorem strLess_irrefl (a : GoString) : strLess a a = false := by
  induction a with
  | nil => rfl
  | cons c cs ih => simp [strLess, ih]

theorem strLess_asymm : ∀ a b : GoString, strLess a b = true → strLess b a = false
  | [], [], h => by simp [strLess] at h
  | [], _ :: _, _ => by simp [strLess]
  | _ :: _, [], h => by simp [strLess] at h
  | c :: cs, d :: ds, h => by
    rcases lt_trichotomy c d with hlt | heq | hgt
    · simp [strLess, hlt, lt_asymm hlt]
    · subst heq
      simp only [strLess, lt_irrefl, if_false] at h ⊢
      exact strLess_asymm cs ds h
    · simp [strLess, hgt, lt_asymm hgt] at h

theorem strLess_trans : ∀ a b c : GoString,
    strLess a b = true → strLess b c = true → strLess a c = true
  | [], [], _, h, _ => by simp [strLess] at h
  | [], _ :: _, [], _, h => by simp [strLess] at h
  | [], _ :: _, _ :: _, _, _ => by simp [strLess]
  | _ :: _, [], _, h, _ => by simp [strLess] at h
  | _ :: _, _ :: _, [], _, h => by simp [strLess] at h
  | x :: xs, y :: ys, z :: zs, h1, h2 => by
    rcases lt_trichotomy x y with hxy | hxy | hxy
    · rcases lt_trichotomy y z with hyz | hyz | hyz
      · simp [strLess, lt_trans hxy hyz]
      · subst hyz; simp [strLess, hxy]
      · simp [strLess, hyz, lt_asymm hyz] at h2
    · subst hxy
      rcases lt_trichotomy x z with hyz | hyz | hyz
      · simp [strLess, hyz]
      · subst hyz
        simp only [strLess, lt_irrefl, if_false] at h1 h2 ⊢
        exact strLess_trans xs ys zs h1 h2
      · simp [strLess, hyz, lt_asymm hyz] at h2
    · simp [strLess, hxy, lt_asymm hxy] at h1

theorem strLess_connex : ∀ a b : GoString,
    strLess a b = false → strLess b a = false → a = b
  | [], [], _, _ => rfl
  | [], _ :: _, h, _ => by simp [strLess] at h
  | _ :: _, [], _, h => by simp [strLess] at h
  | c :: cs, d :: ds, h1, h2 => by
    rcases lt_trichotomy c d with hlt | heq | hgt
    · simp [strLess, hlt] at h1
    · subst heq
      simp only [strLess, lt_irrefl, if_false] at h1 h2
      rw [strLess_connex cs ds h1 h2]
    · simp [strLess, hgt] at h2

/-- The order `strLess` is the lexicographic order of the lists of bytes. -/
theorem strLess_iff_lex (a b : GoString) :
    strLess a b = true ↔ List.Lex (fun x y : Char => x < y) a b := by
  induction a generalizing b with
  | nil =>
    cases b with
    | nil => simp [strLess]
    | cons d ds => simp [strLess, List.Lex.nil]
  | cons c cs ih =>
    cases b with
    | nil => simp [strLess]
    | cons d ds =>
      rcases lt_trichotomy c d with hlt | heq | hgt
      · simp [strLess, hlt, List.Lex.rel hlt]
      · subst heq
        simp only [strLess, lt_irrefl, if_false, ih ds]
        constructor
        · exact List.Lex.cons
        · intro h
          cases h with
          | cons h2 => exact h2
          | rel h2 => exact absurd h2 (lt_irrefl _)
      · simp only [strLess, hgt, lt_asymm hgt, if_false, if_true]
        constructor
        · intro h; cases h
        · intro h
          cases h with
          | cons h2 => exact absurd hgt (lt_irrefl _)
          | rel h2 => exact absurd h2 (lt_asymm hgt)

theorem strLe_total (a b : GoString) : strLe a b ∨ strLe b a := by
  unfold strLe
  cases h : strLess b a with
  | false => exact Or.inl rfl
  | true => exact Or.inr (strLess_asymm b a h)

theorem strLe_trans (a b c : GoString) (h1 : strLe a b) (h2 : strLe b c) : strLe a c := by
  unfold strLe at *
  cases h : strLess c a with
  | false => rfl
  | true =>
    cases hab : strLess a b with
    | false =>
      have := strLess_connex a b hab h1
      subst this
      rw [h] at h2; exact h2
    | true =>
      have := strLess_trans c a b h hab
      rw [this] at h2; exact h2

theorem strLe_antisymm (a b : GoString) (h1 : strLe a b) (h2 : strLe b a) : a = b :=
  strLess_connex a b h2 h1

theorem sort_Strings_perm (x : List GoString) : (sort.Strings x).Perm x :=
  List.perm_insertionSort strLe x

theorem sort_Strings_sorted (x : List GoString) : (sort.Strings x).Sorted strLe := by
  haveI : IsTotal GoString strLe := ⟨strLe_total⟩
  haveI : IsTrans GoString strLe := ⟨strLe_trans⟩
  exact List.sorted_insertionSort strLe x

/-- Every increasing rearrangement of `x` is `sort.Strings x`. -/
theorem sort_Strings_unique (x y : List GoString) (hp : y.Perm x) (hs : y.Sorted strLe) :
    y = sort.Strings x := by
  haveI : IsAntisymm GoString strLe := ⟨strLe_antisymm⟩
  exact List.eq_of_perm_of_sorted (hp.trans (sort_Strings_perm x).symm) hs
    (sort_Strings_sorted x)

/-- On pairwise distinct strings the result of `sort.Strings` is strictly
increasing. -/
theorem sort_Strings_strict (x : List GoString) (hx : x.Nodup) :
    (sort.Strings x).Pairwise (fun a b => strLess a b = true) := by
  have hs : (sort.Strings x).Pairwise strLe := sort_Strings_sorted x
  have hn : (sort.Strings x).Pairwise (fun a b => a ≠ b) :=
    (sort_Strings_perm x).nodup_iff.mpr hx
  refine (hs.and hn).imp ?_
  intro a b hab
  cases h : strLess a b with
  | true => rfl
  | false => exact absurd (strLess_connex a b h hab.1) hab.2

/-! ## `strings.Split` and `strings.Join` -/

theorem Split_ne_nil (s : GoString) (sep : Char) : strings.Split s sep ≠ [] := by
  cases s with
  | nil => simp [strings.Split]
  | cons c cs =>
    unfold strings.Split
    split
    · simp
    · split <;> simp

theorem Join_cons_cons (c : Char) (seg : GoString) (segs : List GoString) (sep : GoString) :
    strings.Join ((c :: seg) :: segs) sep = c :: strings.Join (seg :: segs) sep := by
  cases segs <;> simp [strings.Join]

/-- Joining the substrings of a split with the separator gives the string back. -/
theorem Join_Split (s : GoString) (sep : Char) :
    strings.Join (strings.Split s sep) [sep] = s := by
  induction s with
  | nil => simp [strings.Split, strings.Join]
  | cons c cs ih =>
    unfold strings.Split
    split
    · rename_i h
      subst h
      cases hs : strings.Split cs c with
      | nil => exact absurd hs (Split_ne_nil cs c)
      | cons seg segs =>
        rw [hs] at ih
        simp [strings.Join, ih]
    · cases hs : strings.Split cs sep with
      | nil => exact absurd hs (Split_ne_nil cs sep)
      | cons seg segs =>
        rw [hs] at ih
        simp only [Join_cons_cons, ih]

/-- The substrings of a split hold only bytes of the string. -/
theorem mem_of_mem_Split (s : GoString) (sep : Char) :
    ∀ seg ∈ strings.Split s sep, ∀ c ∈ seg, c ∈ s := by
  induction s with
  | nil => simp [strings.Split]
  | cons d ds ih =>
    unfold strings.Split
    split
    · intro seg hseg c hc
      rcases List.mem_cons.mp hseg with h | h
      · subst h; simp at hc
      · exact List.mem_cons_of_mem _ (ih seg h c hc)
    · cases hs : strings.Split ds sep with
      | nil => exact absurd hs (Split_ne_nil ds sep)
      | cons seg segs =>
        rw [hs] at ih
        intro seg2 hseg c hc
        rcases List.mem_cons.mp hseg with h | h
        · subst h
          rcases List.mem_cons.mp hc with h2 | h2
          · subst h2; simp
          · exact List.mem_cons_of_mem _ (ih seg (List.mem_cons_self _ _) c h2)
        · exact List.mem_cons_of_mem _ (ih seg2 (List.mem_cons_of_mem _ h) c hc)

/-- The substrings of a split do not hold the separator. -/
theorem sep_not_mem_Split (s : GoString) (sep : Char) :
    ∀ seg ∈ strings.Split s sep, sep ∉ seg := by
  induction s with
  | nil => simp [strings.Split]
  | cons d ds ih =>
    unfold strings.Split
    split
    · intro seg hseg
      rcases List.mem_cons.mp hseg with h | h
      · subst h; simp
      · exact ih seg h
    · rename_i hne
      cases hs : strings.Split ds sep with
      | nil => exact absurd hs (Split_ne_nil ds sep)
      | cons seg segs =>
        rw [hs] at ih
        intro seg2 hseg
        rcases List.mem_cons.mp hseg with h | h
        · subst h
          intro hmem
          rcases List.mem_cons.mp hmem with h2 | h2
          · exact hne h2.symm
          · exact ih seg (List.mem_cons_self _ _) h2
        · exact ih seg2 (List.mem_cons_of_mem _ h)

/-! ## The key escaper outside a quoted run -/

theorem HasPrefix_quote_false (ks : GoString) (h : quoteChar ∉ ks) :
    strings.HasPrefix ks quote = false := by
  cases ks with
  | nil => rfl
  | cons c cs =>
    have hc : c ≠ quoteChar := fun e => h (by simp [e])
    simp [strings.HasPrefix, quote, List.isPrefixOf, Ne.symm hc]

theorem keySequenceStep_plain (acc : List GoString) (ks : GoString)
    (h : strings.HasPrefix ks quote = false) :
    keySequenceStep (false, acc) ks = (false, acc ++ [ks]) := by
  simp [keySequenceStep, h]

theorem foldl_keySequenceStep_plain (segs : List GoString) (acc : List GoString)
    (h : ∀ seg ∈ segs, strings.HasPrefix seg quote = false) :
    segs.foldl keySequenceStep (false, acc) = (false, acc ++ segs) := by
  induction segs generalizing acc with
  | nil => simp
  | cons seg rest ih =>
    rw [List.foldl_cons, keySequenceStep_plain acc seg (h seg (List.mem_cons_self _ _))]
    rw [ih _ (fun s hs => h s (List.mem_cons_of_mem _ hs))]
    simp

theorem escapeKey_plain (k : GoString) (h : quoteChar ∉ k) : escapeKey k = k := by
  unfold escapeKey
  have hseg : ∀ seg ∈ strings.Split k '.', strings.HasPrefix seg quote = false :=
    fun seg hs => HasPrefix_quote_false seg (fun hc => h (mem_of_mem_Split k '.' seg hs _ hc))
  simp only [foldl_keySequenceStep_plain _ _ hseg, List.nil_append]
  exact Join_Split k '.'

/-! ## Maps -/

theorem index_of_mem (m : GoMap) (hm : UniqueKeys m) (k v : GoString) (h : (k, v) ∈ m) :
    m.index k = v := by
  induction m with
  | nil => simp at h
  | cons p rest ih =>
    obtain ⟨k2, v2⟩ := p
    have hm2 : k2 ∉ GoMap.keys rest ∧ UniqueKeys rest := by
      simpa [UniqueKeys, GoMap.keys] using hm
    rcases List.mem_cons.mp h with heq | hin
    · cases heq
      simp [GoMap.index, List.lookup]
    · have hne : k ≠ k2 := by
        intro e
        subst e
        exact hm2.1 (List.mem_map_of_mem Prod.fst hin)
      have hb : (k == k2) = false := by simpa using hne
      have := ih hm2.2 hin
      simp only [GoMap.index, List.lookup, hb] at this ⊢
      exact this

/-! ## Supporting lemmas for the claims on the argument list -/

theorem infix_flatMap_of_mem {α : Type} (f : α → List GoString) (l : List α) (x : α)
    (h : x ∈ l) : f x <:+: l.flatMap f := by
  obtain ⟨s, t, rfl⟩ := List.append_of_mem h
  refine ⟨s.flatMap f, t.flatMap f, ?_⟩
  simp [List.flatMap_append, List.flatMap_cons, List.append_assoc]

/-- The pair of an entry of the mapping occurs in what
`HandleSettingChartValuesForInstall` returns. -/
theorem setPair_infix (step : InstallStep) (cmd : Cmd) (k v : GoString)
    (hm : UniqueKeys step.Set) (hv : (k, v) ∈ step.Set) :
    ["--set".toList, escapeKey k ++ "=".toList ++ v]
      <:+: HandleSettingChartValuesForInstall step cmd := by
  have hk : k ∈ sort.Strings step.Set.keys :=
    (sort_Strings_perm _).mem_iff.mpr (List.mem_map_of_mem Prod.fst hv)
  have hpair : setPair step.Set k = ["--set".toList, escapeKey k ++ "=".toList ++ v] := by
    simp only [setPair, index_of_mem step.Set hm k v hv]
  rw [handleSetting_eq, ← hpair]
  exact (infix_flatMap_of_mem _ _ _ hk).trans (List.suffix_append _ _).isInfix

theorem valuesRun_length (vs : List GoString) :
    (vs.flatMap (fun v => ["--values".toList, v])).length = 2 * vs.length := by
  induction vs with
  | nil => rfl
  | cons v rest ih =>
    rw [List.flatMap_cons, List.length_append, ih]
    simp only [List.length_cons, List.length_nil]
    omega

theorem valuesRun_getElem (vs : List GoString) (i : Nat) (hi : i < vs.length) :
    (vs.flatMap (fun v => ["--values".toList, v]))[2 * i]? = some "--values".toList
      ∧ (vs.flatMap (fun v => ["--values".toList, v]))[2 * i + 1]? = vs[i]? := by
  induction vs generalizing i with
  | nil => simp at hi
  | cons v rest ih =>
    cases i with
    | zero => simp [List.flatMap_cons]
    | succ j =>
      have hj : j < rest.length := by simpa using hi
      have e1 : 2 * (j + 1) = (2 * j + 1) + 1 := by omega
      have e2 : 2 * (j + 1) + 1 = (2 * j + 1 + 1) + 1 := by omega
      have := ih j hj
      simp only [List.flatMap_cons, e1, List.cons_append, List.nil_append,
        List.getElem?_cons_succ]
      exact this

theorem setPair_ne_namespace (set : GoMap) (k : GoString) :
    "--namespace".toList ∉ setPair set k := by
  intro h
  simp only [setPair, List.mem_cons, List.mem_singleton, List.not_mem_nil, or_false] at h
  rcases h with h | h
  · exact absurd h (by decide)
  · have hmem : '=' ∈ escapeKey k ++ "=".toList ++ set.index k := by simp
    rw [← h] at hmem
    exact absurd hmem (by decide)

theorem namespace_not_mem_setTokens (step : InstallStep) :
    "--namespace".toList ∉ setTokens step := by
  intro h
  obtain ⟨k, _, hk⟩ := List.mem_flatMap.mp h
  exact setPair_ne_namespace _ _ hk

/-! ## The argument builder: claims C1 to C7 -/

/-- C1: the argument tokens `Install` builds for a step, after the initial
arguments of the command, are the concatenation, in this order, of the base verb
tokens, the `--namespace` pair iff the namespace is non-empty, the `--version`
pair iff the version is non-empty, `--replace`, `--wait` and `--devel` iff the
respective flag is set, one `--values` pair per value file in input order, and
one `--set` pair per override key in the order of `sort.Strings`. -/
theorem Install_argument_tokens (step : InstallStep) (cmd : Cmd) :
    installArgs step cmd
      = cmd.Args
        ++ (if step.UpSert then ["upgrade".toList, "--install".toList, step.Name, step.Chart]
            else ["install".toList, step.Name, step.Chart])
        ++ (if step.Namespace = [] then [] else ["--namespace".toList, step.Namespace])
        ++ (if step.Version = [] then [] else ["--version".toList, step.Version])
        ++ (if step.Replace then ["--replace".toList] else [])
        ++ (if step.Wait then ["--wait".toList] else [])
        ++ (if step.Devel then ["--devel".toList] else [])
        ++ step.Values.flatMap (fun v => ["--values".toList, v])
        ++ (sort.Strings step.Set.keys).flatMap
            (fun k => ["--set".toList, escapeKey k ++ "=".toList ++ step.Set.index k]) := by
  have e : setPair step.Set
      = fun k => ["--set".toList, escapeKey k ++ "=".toList ++ step.Set.index k] := rfl
  rw [installArgs_eq, e]
  simp only [verbTokens, flagTokens, List.append_assoc]

/-- C2: for an override mapping (its keys pairwise distinct),
`HandleSettingChartValuesForInstall` appends to the incoming arguments one
`--set` pair per entry of the mapping, the entries taken in strictly ascending
bytewise order of their unescaped keys; the pair of the entry `(k, v)` is the
token `--set` followed by the escaped key, `=` and `v` unchanged. -/
theorem HandleSetting_sorted_pairs (step : InstallStep) (cmd : Cmd)
    (hm : UniqueKeys step.Set) :
    ∃ entries : List (GoString × GoString),
      entries.Perm step.Set
        ∧ (entries.map Prod.fst).Pairwise (fun a b => strLess a b = true)
        ∧ HandleSettingChartValuesForInstall step cmd
            = cmd.Args ++ entries.flatMap
                (fun e => ["--set".toList, escapeKey e.1 ++ "=".toList ++ e.2]) := by
  refine ⟨(sort.Strings step.Set.keys).map (fun k => (k, step.Set.index k)), ?_, ?_, ?_⟩
  · have h1 : ((sort.Strings step.Set.keys).map (fun k => (k, step.Set.index k))).Perm
        (step.Set.keys.map (fun k => (k, step.Set.index k))) :=
      (sort_Strings_perm _).map _
    have h2 : step.Set.keys.map (fun k => (k, step.Set.index k)) = step.Set := by
      unfold GoMap.keys
      rw [List.map_map]
      conv_rhs => rw [← List.map_id step.Set]
      apply List.map_congr_left
      intro p hp
      obtain ⟨k, v⟩ := p
      simp [index_of_mem step.Set hm k v hp]
    rw [h2] at h1
    exact h1
  · rw [List.map_map]
    have : (Prod.fst ∘ fun k => (k, step.Set.index k)) = (id : GoString → GoString) := rfl
    rw [this, List.map_id]
    exact sort_Strings_strict _ hm
  · rw [handleSetting_eq, List.flatMap_map]
    rfl

/-- The statement of C2 at `fullStep`, whose two overrides are enumerated in
descending key order. -/
theorem HandleSetting_sorted_pairs_witness :
    UniqueKeys fullStep.Set
      ∧ ∃ entries : List (GoString × GoString),
          entries.Perm fullStep.Set
            ∧ (entries.map Prod.fst).Pairwise (fun a b => strLess a b = true)
            ∧ HandleSettingChartValuesForInstall fullStep helmCmd
                = helmCmd.Args ++ entries.flatMap
                    (fun e => ["--set".toList, escapeKey e.1 ++ "=".toList ++ e.2]) :=
  ⟨by decide, HandleSetting_sorted_pairs fullStep helmCmd (by decide)⟩

/-- C3, as the spec states it, fails: for the key `"a.b".c` and the value `v`
the emitted pair keeps both quote characters; it is not `--set a\.b.c=v`. -/
theorem quoted_key_counterexample :
    HandleSettingChartValuesForInstall (quotedKeyStep "v".toList) { helmCmd with Args := [] }
        = ["--set".toList, "\"a\\.b\".c=v".toList]
      ∧ HandleSettingChartValuesForInstall (quotedKeyStep "v".toList) { helmCmd with Args := [] }
        ≠ ["--set".toList, "a\\.b.c=v".toList] := by
  decide

/-- C3, amended: for the override key `"a.b".c` with any value `v`, the emitted
pair is `--set` followed by the token `"a\.b".c=v`: the dot inside the quoted
segment is escaped, the following segment is joined by a plain dot, and the
quote characters are kept. -/
theorem quoted_key_pair (step : InstallStep) (cmd : Cmd) (v : GoString)
    (hm : UniqueKeys step.Set) (hv : (quotedKey, v) ∈ step.Set) :
    ["--set".toList, "\"a\\.b\".c=".toList ++ v]
      <:+: HandleSettingChartValuesForInstall step cmd := by
  have he : escapeKey quotedKey = "\"a\\.b\".c".toList := by decide
  have h := setPair_infix step cmd quotedKey v hm hv
  rw [he] at h
  exact h

/-- The amended statement of C3 at the step whose only override maps the key to
`v`. -/
theorem quoted_key_pair_witness :
    UniqueKeys (quotedKeyStep "v".toList).Set
      ∧ (quotedKey, "v".toList) ∈ (quotedKeyStep "v".toList).Set
      ∧ ["--set".toList, "\"a\\.b\".c=".toList ++ "v".toList]
          <:+: HandleSettingChartValuesForInstall (quotedKeyStep "v".toList) helmCmd :=
  ⟨by decide, by decide,
    quoted_key_pair (quotedKeyStep "v".toList) helmCmd "v".toList (by decide) (by decide)⟩

/-- C4: a key without a quote character (the empty key and keys with empty
segments included) is returned unchanged by the key escaper, so the pair
emitted for an entry `(k, v)` with such a key is `--set` followed by the key,
`=` and `v`. -/
theorem escapeKey_without_quote (k : GoString) (h : quoteChar ∉ k) :
    escapeKey k = k
      ∧ ∀ (step : InstallStep) (cmd : Cmd) (v : GoString),
          UniqueKeys step.Set → (k, v) ∈ step.Set →
          ["--set".toList, k ++ "=".toList ++ v]
            <:+: HandleSettingChartValuesForInstall step cmd := by
  refine ⟨escapeKey_plain k h, ?_⟩
  intro step cmd v hm hv
  have hi := setPair_infix step cmd k v hm hv
  rw [escapeKey_plain k h] at hi
  exact hi

/-- The statement of C4 at the key `a.b.c` of the spec, at the empty key and at
a key with empty segments. -/
theorem escapeKey_without_quote_witness :
    quoteChar ∉ "a.b.c".toList
      ∧ escapeKey "a.b.c".toList = "a.b.c".toList
      ∧ escapeKey [] = []
      ∧ escapeKey "a..b.".toList = "a..b.".toList
      ∧ ∀ (step : InstallStep) (cmd : Cmd) (v : GoString),
          UniqueKeys step.Set → ("a.b.c".toList, v) ∈ step.Set →
          ["--set".toList, "a.b.c".toList ++ "=".toList ++ v]
            <:+: HandleSettingChartValuesForInstall step cmd :=
  ⟨by decide, (escapeKey_without_quote "a.b.c".toList (by decide)).1,
    (escapeKey_without_quote [] (by decide)).1,
    (escapeKey_without_quote "a..b.".toList (by decide)).1,
    (escapeKey_without_quote "a.b.c".toList (by decide)).2⟩

/-- C5: the argument tokens built for a step begin with `install`, the name and
the chart when the upgrade-or-install flag is unset, and with `upgrade`,
`--install`, the name and the chart when it is set. -/
theorem Install_base_verb (step : InstallStep) (cmd : Cmd) :
    (cmd.Args
      ++ (if step.UpSert then ["upgrade".toList, "--install".toList, step.Name, step.Chart]
          else ["install".toList, step.Name, step.Chart]))
      <+: installArgs step cmd := by
  rw [installArgs_eq]
  simp only [List.append_assoc]
  exact ⟨_, by simp only [verbTokens, List.append_assoc]; rfl⟩

/-- C6, as the spec states it, fails: a step with an empty namespace whose
release name is `--namespace` has that token in its built argument list. -/
theorem namespace_token_counterexample :
    namespaceNamedStep.Namespace = []
      ∧ installArgs namespaceNamedStep helmCmd
          = helmCmd.Args ++ ["install".toList, "--namespace".toList, "mychart".toList]
      ∧ "--namespace".toList ∈ (installArgs namespaceNamedStep helmCmd).drop helmCmd.Args.length := by
  decide

/-- C6, amended: for a step whose namespace is the empty string and whose name,
chart, version and value files all differ from `--namespace`, no token built
after the initial arguments of the command equals `--namespace`. -/
theorem no_namespace_token (step : InstallStep) (cmd : Cmd)
    (hns : step.Namespace = [])
    (hname : step.Name ≠ "--namespace".toList)
    (hchart : step.Chart ≠ "--namespace".toList)
    (hversion : step.Version ≠ "--namespace".toList)
    (hvalues : "--namespace".toList ∉ step.Values) :
    ∃ built : List GoString,
      installArgs step cmd = cmd.Args ++ built ∧ "--namespace".toList ∉ built := by
  refine ⟨verbTokens step ++ flagTokens step ++ valuesTokens step ++ setTokens step, ?_, ?_⟩
  · rw [installArgs_eq]
    simp only [valuesTokens, setTokens, List.append_assoc]
  · have hverb : "--namespace".toList ∉ verbTokens step := by
      unfold verbTokens
      split
      · simp only [List.mem_cons, List.mem_singleton, List.not_mem_nil, or_false, not_or]
        exact ⟨by decide, by decide, Ne.symm hname, Ne.symm hchart⟩
      · simp only [List.mem_cons, List.mem_singleton, List.not_mem_nil, or_false, not_or]
        exact ⟨by decide, Ne.symm hname, Ne.symm hchart⟩
    have hflag : "--namespace".toList ∉ flagTokens step := by
      unfold flagTokens
      rw [if_pos hns]
      simp only [List.nil_append, List.mem_append, not_or]
      refine ⟨⟨⟨?_, ?_⟩, ?_⟩, ?_⟩
      · split
        · simp
        · simp only [List.mem_cons, List.mem_singleton, List.not_mem_nil, or_false, not_or]
          exact ⟨by decide, Ne.symm hversion⟩
      · split
        · simp only [List.mem_singleton]; decide
        · simp
      · split
        · simp only [List.mem_singleton]; decide
        · simp
      · split
        · simp only [List.mem_singleton]; decide
        · simp
    have hval : "--namespace".toList ∉ valuesTokens step := by
      intro h
      obtain ⟨v, hv, hmem⟩ := List.mem_flatMap.mp h
      simp only [List.mem_cons, List.mem_singleton, List.not_mem_nil, or_false] at hmem
      rcases hmem with h1 | h1
      · exact absurd h1 (by decide)
      · exact hvalues (h1 ▸ hv)
    simp only [List.mem_append, not_or]
    exact ⟨⟨⟨hverb, hflag⟩, hval⟩, namespace_not_mem_setTokens step⟩

/-- The amended statement of C6 at `fullStepNoNamespace`. -/
theorem no_namespace_token_witness :
    fullStepNoNamespace.Namespace = []
      ∧ fullStepNoNamespace.Name ≠ "--namespace".toList
      ∧ fullStepNoNamespace.Chart ≠ "--namespace".toList
      ∧ fullStepNoNamespace.Version ≠ "--namespace".toList
      ∧ "--namespace".toList ∉ fullStepNoNamespace.Values
      ∧ ∃ built : List GoString,
          installArgs fullStepNoNamespace helmCmd = helmCmd.Args ++ built
            ∧ "--namespace".toList ∉ built :=
  ⟨by decide, by decide, by decide, by decide, by decide,
    no_namespace_token fullStepNoNamespace helmCmd (by decide) (by decide) (by decide)
      (by decide) (by decide)⟩

/-- C7: for a step with the value files `v1, ..., vn`, the built argument list
is the initial arguments, the base verb and option tokens, then the run
`--values v1 ... --values vn`, then the `--set` pairs: the run has one pair per
value file, in input order (its tokens at `2 * i` and `2 * i + 1` are `--values`
and the `i`-th value file), and the list `[f1.yaml, f2.yaml]` yields
`--values f1.yaml --values f2.yaml`. -/
theorem Install_values_run (step : InstallStep) (cmd : Cmd) :
    ∃ run : List GoString,
      installArgs step cmd
          = (cmd.Args ++ verbTokens step ++ flagTokens step) ++ run ++ setTokens step
        ∧ run = step.Values.flatMap (fun v => ["--values".toList, v])
        ∧ run.length = 2 * step.Values.length
        ∧ (∀ i, i < step.Values.length →
            run[2 * i]? = some "--values".toList ∧ run[2 * i + 1]? = step.Values[i]?)
        ∧ (step.Values = ["f1.yaml".toList, "f2.yaml".toList] →
            run = ["--values".toList, "f1.yaml".toList, "--values".toList, "f2.yaml".toList]) := by
  refine ⟨step.Values.flatMap (fun v => ["--values".toList, v]), ?_, rfl,
    valuesRun_length _, valuesRun_getElem _, ?_⟩
  · rw [installArgs_eq]
    rfl
  · intro h
    rw [h]
    rfl

theorem Install_of_count_ne (w : World) (payload : GoString) (kubeClient : KubeClient)
    (action : InstallAction) (hp : w.getPayloadData = .ok payload)
    (hc : w.getKubernetesClient kubeConfig = .ok kubeClient)
    (hu : w.Unmarshal payload = .ok action) (hn : action.Steps.length ≠ 1) :
    Install w = (decodeEffects payload, some (singleStepError action.Steps.length)) := by
  unfold Install
  simp only [hp, hc, hu]
  rw [dif_pos hn]
  rfl

theorem Install_of_single (w : World) (payload : GoString) (kubeClient : KubeClient)
    (action : InstallAction) (step : InstallStep) (hp : w.getPayloadData = .ok payload)
    (hc : w.getKubernetesClient kubeConfig = .ok kubeClient)
    (hu : w.Unmarshal payload = .ok action) (hs : action.Steps = [step]) :
    Install w = afterLaunch w kubeClient step (decodeEffects payload ++ launchEffects w step) := by
  obtain ⟨steps⟩ := action
  simp only at hs
  subst hs
  unfold Install
  simp only [hp, hc, hu]
  rw [dif_neg (by simp)]
  simp only [List.getElem_cons_zero]
  unfold afterLaunch
  cases h1 : w.Start (builtCmd w step) <;> simp only [builtCmd] at h1 <;> simp only [h1]
  · cases h2 : w.Wait (builtCmd w step) <;> simp only [builtCmd] at h2 <;> simp only [h2]
    · rfl
    · rfl
  · rfl

theorem Install_handleOutputs_mem (w : World) (client : KubeClient) (ns : GoString)
    (outs : Outputs) (h : Effect.handleOutputs client ns outs ∈ (Install w).1) :
    ∃ payload action step,
      w.getPayloadData = .ok payload
        ∧ w.getKubernetesClient kubeConfig = .ok client
        ∧ w.Unmarshal payload = .ok action
        ∧ action.Steps = [step]
        ∧ w.Start (builtCmd w step) = none
        ∧ w.Wait (builtCmd w step) = none
        ∧ ns = step.Namespace ∧ outs = step.Outputs
        ∧ Install w
            = (decodeEffects payload ++ launchEffects w step
                ++ [Effect.Wait (builtCmd w step), Effect.handleOutputs client ns outs],
               w.handleOutputs client ns outs) := by
  cases hp : w.getPayloadData with
  | error err => simp [Install, hp] at h
  | ok payload =>
    cases hc : w.getKubernetesClient kubeConfig with
    | error err => simp [Install, hp, hc] at h
    | ok kubeClient =>
      cases hu : w.Unmarshal payload with
      | error err => simp [Install, hp, hc, hu] at h
      | ok action =>
        by_cases hn : action.Steps.length ≠ 1
        · rw [Install_of_count_ne w payload kubeClient action hp hc hu hn] at h
          simp [decodeEffects] at h
        · have hlen : action.Steps.length = 1 := by omega
          obtain ⟨step, hs⟩ := List.length_eq_one.mp hlen
          have hI := Install_of_single w payload kubeClient action step hp hc hu hs
          rw [hI] at h ⊢
          unfold afterLaunch at h ⊢
          cases h1 : w.Start (builtCmd w step) with
          | some err => simp [h1, decodeEffects, launchEffects] at h
          | none =>
            cases h2 : w.Wait (builtCmd w step) with
            | some err => simp [h1, h2, decodeEffects, launchEffects] at h
            | none =>
              simp only [h1, h2] at h ⊢
              have hmem : Effect.handleOutputs client ns outs
                  = Effect.handleOutputs kubeClient step.Namespace step.Outputs := by
                simpa [decodeEffects, launchEffects] using h
              injection hmem with e1 e2 e3
              subst e1 e2 e3
              exact ⟨payload, action, step, rfl, rfl, hu, hs, h1, h2, rfl, rfl,
                by simp [List.append_assoc]⟩

/-! ## The driver: claims C8 to C10 -/

/-- C8: when the decoded action does not have exactly one step, `Install`
returns the error `expected a single step, but got <n>` having performed only
the payload, client and decoding calls: no command is made from a step, nothing
is printed, no process is started or waited for and no outputs are collected.
With exactly one step the check passes: `Install` goes on to make the command
for that step, print it and start it. -/
theorem Install_single_step_check (w : World) (payload : GoString) (kubeClient : KubeClient)
    (action : InstallAction) (hp : w.getPayloadData = .ok payload)
    (hc : w.getKubernetesClient kubeConfig = .ok kubeClient)
    (hu : w.Unmarshal payload = .ok action) :
    (action.Steps.length ≠ 1 →
        Install w
          = ([Effect.getPayloadData, Effect.getKubernetesClient kubeConfig,
              Effect.Unmarshal payload],
             some ("expected a single step, but got ".toList
                    ++ Nat.toDigits 10 action.Steps.length)))
      ∧ (action.Steps.length = 1 →
          ∃ step, action.Steps = [step]
            ∧ ([Effect.getPayloadData, Effect.getKubernetesClient kubeConfig,
                Effect.Unmarshal payload,
                Effect.NewCommand "helm3".toList,
                Effect.Fprintln (prettyCmd (builtCmd w step) ++ "\n".toList),
                Effect.Start (builtCmd w step)]) <+: (Install w).1) := by
  refine ⟨fun hn => Install_of_count_ne w payload kubeClient action hp hc hu hn, ?_⟩
  intro hlen
  obtain ⟨step, hs⟩ := List.length_eq_one.mp hlen
  refine ⟨step, hs, ?_⟩
  rw [Install_of_single w payload kubeClient action step hp hc hu hs]
  unfold afterLaunch
  cases w.Start (builtCmd w step) with
  | some err => exact ⟨[], by simp [decodeEffects, launchEffects]⟩
  | none =>
    cases w.Wait (builtCmd w step) with
    | some err => exact ⟨_, by simp [decodeEffects, launchEffects]; rfl⟩
    | none => exact ⟨_, by simp [decodeEffects, launchEffects]; rfl⟩

/-- The statement of C8 at a payload of two steps and at a payload of one step. -/
theorem Install_single_step_check_witness :
    Install twoStepWorld
        = ([Effect.getPayloadData, Effect.getKubernetesClient kubeConfig,
            Effect.Unmarshal "install: ...".toList],
           some "expected a single step, but got 2".toList)
      ∧ ∃ step, [bareStep] = [step]
          ∧ ([Effect.getPayloadData, Effect.getKubernetesClient kubeConfig,
              Effect.Unmarshal "install: ...".toList,
              Effect.NewCommand "helm3".toList,
              Effect.Fprintln (prettyCmd (builtCmd successWorld step) ++ "\n".toList),
              Effect.Start (builtCmd successWorld step)]) <+: (Install successWorld).1 :=
  ⟨(Install_single_step_check twoStepWorld "install: ...".toList 0
      { Steps := [bareStep, fullStep] } rfl rfl rfl).1 (by decide),
   (Install_single_step_check successWorld "install: ...".toList 0
      { Steps := [bareStep] } rfl rfl rfl).2 rfl⟩

/-- C9: when the process starts and its wait reports a failure, `Install`
returns that error and never calls `handleOutputs`. In every run,
`handleOutputs` is called only after `Wait` returned `nil`, as the last effect,
with the client, the namespace of the step and its output bindings, and what it
returns is what `Install` returns. -/
theorem Install_wait_failure_skips_outputs (w : World) :
    (∀ payload kubeClient action step err,
        w.getPayloadData = .ok payload →
        w.getKubernetesClient kubeConfig = .ok kubeClient →
        w.Unmarshal payload = .ok action →
        action.Steps = [step] →
        w.Start (builtCmd w step) = none →
        w.Wait (builtCmd w step) = some err →
        (Install w).2 = some err
          ∧ ∀ client ns outs, Effect.handleOutputs client ns outs ∉ (Install w).1)
      ∧ (∀ client ns outs, Effect.handleOutputs client ns outs ∈ (Install w).1 →
          ∃ payload action step,
            w.getPayloadData = .ok payload
              ∧ w.getKubernetesClient kubeConfig = .ok client
              ∧ w.Unmarshal payload = .ok action
              ∧ action.Steps = [step]
              ∧ w.Wait (builtCmd w step) = none
              ∧ ns = step.Namespace ∧ outs = step.Outputs
              ∧ (Install w).1
                  = decodeEffects payload ++ launchEffects w step
                      ++ [Effect.Wait (builtCmd w step),
                          Effect.handleOutputs client ns outs]
              ∧ (Install w).2 = w.handleOutputs client ns outs) := by
  constructor
  · intro payload kubeClient action step err hp hc hu hs h1 h2
    have hI := Install_of_single w payload kubeClient action step hp hc hu hs
    unfold afterLaunch at hI
    simp only [h1, h2] at hI
    rw [hI]
    refine ⟨rfl, ?_⟩
    intro client ns outs
    simp [decodeEffects, launchEffects]
  · intro client ns outs h
    obtain ⟨payload, action, step, hp, hc, hu, hs, _, h2, hns, ho, hI⟩ :=
      Install_handleOutputs_mem w client ns outs h
    exact ⟨payload, action, step, hp, hc, hu, hs, h2, hns, ho, by rw [hI], by rw [hI]⟩

/-- The statement of C9 at a run whose process exits with status 1 and at a run
that succeeds. -/
theorem Install_wait_failure_skips_outputs_witness :
    ((Install exitWorld).2 = some "exit status 1".toList
        ∧ ∀ client ns outs, Effect.handleOutputs client ns outs ∉ (Install exitWorld).1)
      ∧ ∃ payload action step,
          successWorld.getPayloadData = .ok payload
            ∧ successWorld.getKubernetesClient kubeConfig = .ok 0
            ∧ successWorld.Unmarshal payload = .ok action
            ∧ action.Steps = [step]
            ∧ successWorld.Wait (builtCmd successWorld step) = none
            ∧ bareStep.Namespace = step.Namespace ∧ bareStep.Outputs = step.Outputs
            ∧ (Install successWorld).1
                = decodeEffects payload ++ launchEffects successWorld step
                    ++ [Effect.Wait (builtCmd successWorld step),
                        Effect.handleOutputs 0 bareStep.Namespace bareStep.Outputs]
            ∧ (Install successWorld).2
                = successWorld.handleOutputs 0 bareStep.Namespace bareStep.Outputs :=
  ⟨(Install_wait_failure_skips_outputs exitWorld).1 "install: ...".toList 0
      { Steps := [bareStep] } bareStep "exit status 1".toList rfl rfl rfl rfl rfl rfl,
   (Install_wait_failure_skips_outputs successWorld).2 0 bareStep.Namespace bareStep.Outputs
      (by decide)⟩

/-- C10, evaluated where it fails: the process of a one-step payload starts and
exits with status 1; `Install` prints and starts the command
`helm3 helm3 install myrelease mychart` and returns the error of `Wait` as it
is, `exit status 1`, a message that does not hold the command string. -/
theorem Install_exit_error_lacks_command :
    Install exitWorld
        = ([Effect.getPayloadData, Effect.getKubernetesClient kubeConfig,
            Effect.Unmarshal "install: ...".toList,
            Effect.NewCommand "helm3".toList,
            Effect.Fprintln "helm3 helm3 install myrelease mychart\n".toList,
            Effect.Start (builtCmd exitWorld bareStep),
            Effect.Wait (builtCmd exitWorld bareStep)],
           some "exit status 1".toList)
      ∧ prettyCmd (builtCmd exitWorld bareStep)
          = "helm3 helm3 install myrelease mychart".toList
      ∧ ¬ (prettyCmd (builtCmd exitWorld bareStep) <:+: "exit status 1".toList) := by
  decide

/-! ## The loop of the key escaper in closed form -/

theorem Replace_quote (s : GoString) : strings.Replace s quoteChar quote = s := by
  induction s with
  | nil => rfl
  | cons c cs ih =>
    have ih2 : List.flatMap cs (fun c => if c = quoteChar then [quoteChar] else [c]) = cs := ih
    by_cases h : c = quoteChar
    · subst h
      simp [strings.Replace, List.flatMap_cons, quote, ih2]
    · simp [strings.Replace, List.flatMap_cons, quote, h, ih2]

theorem keySequenceStep_eq (b : Bool) (acc : List GoString) (ks : GoString) :
    keySequenceStep (b, acc) ks = (runOpen b ks, acc ++ [escapedSegment b ks]) := by
  cases hp : strings.HasPrefix ks quote <;> cases hs : strings.HasSuffix ks quote <;>
    cases b <;> simp [keySequenceStep, runOpen, escapedSegment, hp, hs, Replace_quote]

theorem foldl_keySequenceStep (segs : List GoString) (b : Bool) (acc : List GoString) :
    (segs.foldl keySequenceStep (b, acc)).2 = acc ++ escapedSegments b segs := by
  induction segs generalizing b acc with
  | nil => simp [escapedSegments]
  | cons ks rest ih =>
    rw [List.foldl_cons, keySequenceStep_eq, ih]
    simp [escapedSegments]

theorem escapeKey_eq (k : GoString) :
    escapeKey k = strings.Join (escapedSegments false (strings.Split k '.')) ".".toList := by
  unfold escapeKey
  simp only [foldl_keySequenceStep, List.nil_append]

theorem escapedSegments_length (b : Bool) (segs : List GoString) :
    (escapedSegments b segs).length = segs.length := by
  induction segs generalizing b with
  | nil => rfl
  | cons ks rest ih => simp [escapedSegments, ih]

theorem escapedSegments_forall₂ (b : Bool) (segs : List GoString) :
    List.Forall₂ (fun s o => o = s ∨ o = s ++ backslash) segs (escapedSegments b segs) := by
  induction segs generalizing b with
  | nil => exact List.Forall₂.nil
  | cons ks rest ih =>
    refine List.Forall₂.cons ?_ (ih _)
    unfold escapedSegment
    split
    · exact Or.inr rfl
    · exact Or.inl rfl

/-! ## Splitting a joined list -/

theorem Split_of_not_mem (a : GoString) (sep : Char) (h : sep ∉ a) :
    strings.Split a sep = [a] := by
  induction a with
  | nil => rfl
  | cons c cs ih =>
    have hc : c ≠ sep := fun e => h (by simp [e])
    have hcs : sep ∉ cs := fun e => h (List.mem_cons_of_mem _ e)
    simp [strings.Split, hc, ih hcs]

theorem Split_append_sep (a rest : GoString) (sep : Char) (h : sep ∉ a) :
    strings.Split (a ++ sep :: rest) sep = a :: strings.Split rest sep := by
  induction a with
  | nil => simp [strings.Split]
  | cons c cs ih =>
    have hc : c ≠ sep := fun e => h (by simp [e])
    have hcs : sep ∉ cs := fun e => h (List.mem_cons_of_mem _ e)
    simp [strings.Split, hc, ih hcs]

/-- Splitting the join of segments that do not hold the separator gives the
segments back. -/
theorem Split_Join (segs : List GoString) (sep : Char) (hne : segs ≠ [])
    (h : ∀ s ∈ segs, sep ∉ s) : strings.Split (strings.Join segs [sep]) sep = segs := by
  induction segs with
  | nil => exact absurd rfl hne
  | cons a rest ih =>
    cases rest with
    | nil => simpa [strings.Join] using Split_of_not_mem a sep (h a (List.mem_cons_self _ _))
    | cons b rest2 =>
      have ha : sep ∉ a := h a (List.mem_cons_self _ _)
      have hrest : ∀ s ∈ b :: rest2, sep ∉ s := fun s hs => h s (List.mem_cons_of_mem _ hs)
      have := ih (by simp) hrest
      simp only [strings.Join, List.append_assoc, List.singleton_append]
      rw [Split_append_sep a _ sep ha, this]

theorem dot_not_mem_escapedSegments (b : Bool) (segs : List GoString)
    (h : ∀ s ∈ segs, '.' ∉ s) : ∀ o ∈ escapedSegments b segs, '.' ∉ o := by
  induction segs generalizing b with
  | nil => simp [escapedSegments]
  | cons ks rest ih =>
    intro o ho
    simp only [escapedSegments, List.mem_cons] at ho
    rcases ho with ho | ho
    · subst ho
      have hks : '.' ∉ ks := h ks (List.mem_cons_self _ _)
      unfold escapedSegment
      split
      · intro hm
        rcases List.mem_append.mp hm with h1 | h1
        · exact hks h1
        · exact absurd h1 (by decide)
      · exact hks
    · exact ih _ (fun s hs => h s (List.mem_cons_of_mem _ hs)) o ho

/-- The segments of the escaped key are the escaped segments of the key. -/
theorem Split_escapeKey (k : GoString) :
    strings.Split (escapeKey k) '.' = escapedSegments false (strings.Split k '.') := by
  rw [escapeKey_eq]
  apply Split_Join
  · intro h
    have := escapedSegments_length false (strings.Split k '.')
    rw [h] at this
    exact Split_ne_nil k '.' (List.length_eq_zero.mp this.symm)
  · exact dot_not_mem_escapedSegments _ _ (sep_not_mem_Split k '.')

/-! ## The key escaper is injective and only appends backslashes -/

theorem HasSuffix_append_backslash (s : GoString) :
    strings.HasSuffix (s ++ backslash) quote = false := by
  simp [strings.HasSuffix, List.isSuffixOf, quote, backslash, quoteChar, List.isPrefixOf]

theorem HasPrefix_append_backslash (s : GoString) :
    strings.HasPrefix (s ++ backslash) quote = strings.HasPrefix s quote := by
  cases s with
  | nil => simp [strings.HasPrefix, quote, backslash, quoteChar, List.isPrefixOf]
  | cons c cs => simp [strings.HasPrefix, quote, List.isPrefixOf]

theorem escapedSegment_injective (b : Bool) (s t : GoString)
    (h : escapedSegment b s = escapedSegment b t) : s = t := by
  have key : ∀ u v : GoString, runOpen b u = true → runOpen b v = false →
      u ++ backslash = v → False := by
    intro u v hu hv e
    subst e
    simp only [runOpen, HasPrefix_append_backslash, HasSuffix_append_backslash] at hu hv
    cases hp : strings.HasPrefix u quote <;> cases b <;> simp [hp] at hu hv
  unfold escapedSegment at h
  cases hs : runOpen b s <;> cases ht : runOpen b t <;> simp only [hs, ht] at h
  · simpa using h
  · exact absurd h.symm (fun e => key t s ht hs e)
  · exact absurd h (fun e => key s t hs ht e)
  · exact List.append_cancel_right h

theorem escapedSegments_injective (b : Bool) (l₁ l₂ : List GoString)
    (h : escapedSegments b l₁ = escapedSegments b l₂) : l₁ = l₂ := by
  induction l₁ generalizing b l₂ with
  | nil =>
    cases l₂ with
    | nil => rfl
    | cons t rest => simp [escapedSegments] at h
  | cons s rest ih =>
    cases l₂ with
    | nil => simp [escapedSegments] at h
    | cons t rest2 =>
      simp only [escapedSegments, List.cons.injEq] at h
      have hst := escapedSegment_injective b s t h.1
      subst hst
      rw [ih _ _ h.2]

theorem escapeKey_inj (k₁ k₂ : GoString) (h : escapeKey k₁ = escapeKey k₂) : k₁ = k₂ := by
  have hs : strings.Split k₁ '.' = strings.Split k₂ '.' := by
    apply escapedSegments_injective false
    rw [← Split_escapeKey, ← Split_escapeKey, h]
  rw [← Join_Split k₁ '.', ← Join_Split k₂ '.', hs]

/-- A relation on strings that holds of the empty strings, of the separator
with itself and of concatenations holds of the joins of related lists. -/
theorem Join_forall₂ (R : GoString → GoString → Prop) (sep : GoString) (hnil : R [] [])
    (hsep : R sep sep) (happ : ∀ a b c d, R a b → R c d → R (a ++ c) (b ++ d))
    (l₁ l₂ : List GoString) (h : List.Forall₂ R l₁ l₂) :
    R (strings.Join l₁ sep) (strings.Join l₂ sep) := by
  induction h with
  | nil => exact hnil
  | cons hab ht ih =>
    cases ht with
    | nil => simpa [strings.Join] using hab
    | cons hcd ht2 =>
      simp only [strings.Join]
      exact happ _ _ _ _ (happ _ _ _ _ hab hsep) ih

theorem escapeKey_sublist (k : GoString) : k.Sublist (escapeKey k) := by
  have h := Join_forall₂ (fun a b => a.Sublist b) ".".toList List.Sublist.slnil
    (List.Sublist.refl _) (fun a b c d h1 h2 => h1.append h2)
    (strings.Split k '.') (escapedSegments false (strings.Split k '.'))
    ((escapedSegments_forall₂ false _).imp (by
      intro s o ho
      rcases ho with ho | ho
      · rw [ho]
      · rw [ho]; exact List.sublist_append_left _ _))
  have e : (".".toList : GoString) = ['.'] := rfl
  rw [e, Join_Split] at h
  rw [escapeKey_eq]
  exact h

theorem escapeKey_filter (k : GoString) :
    (escapeKey k).filter (fun c => c != '\\') = k.filter (fun c => c != '\\') := by
  have h := Join_forall₂ (fun a b => b.filter (fun c => c != '\\') = a.filter (fun c => c != '\\'))
    ".".toList rfl rfl
    (fun a b c d h1 h2 => by simp only [List.filter_append, h1, h2])
    (strings.Split k '.') (escapedSegments false (strings.Split k '.'))
    ((escapedSegments_forall₂ false _).imp (by
      intro s o ho
      rcases ho with ho | ho
      · rw [ho]
      · rw [ho]; simp [backslash]))
  have e : (".".toList : GoString) = ['.'] := rfl
  rw [e, Join_Split] at h
  rw [escapeKey_eq]
  exact h

/-! ## The key escaper inside a quoted run -/

theorem escapedSegments_plain (ts : List GoString)
    (h : ∀ t ∈ ts, strings.HasPrefix t quote = false) : escapedSegments false ts = ts := by
  induction ts with
  | nil => rfl
  | cons t rest ih =>
    have ht : runOpen false t = false := by simp [runOpen, h t (List.mem_cons_self _ _)]
    simp only [escapedSegments, escapedSegment, ht]
    rw [ih (fun s hs => h s (List.mem_cons_of_mem _ hs))]
    rfl

theorem escapedSegments_middle (mid rest : List GoString)
    (h : ∀ q ∈ mid, strings.HasPrefix q quote = false ∧ strings.HasSuffix q quote = false) :
    escapedSegments true (mid ++ rest)
      = mid.map (fun q => q ++ backslash) ++ escapedSegments true rest := by
  induction mid with
  | nil => rfl
  | cons q more ih =>
    have hq : runOpen true q = true := by simp [runOpen, (h q (List.mem_cons_self _ _)).2]
    have e : escapedSegments true (q :: (more ++ rest))
        = escapedSegment true q :: escapedSegments (runOpen true q) (more ++ rest) := rfl
    rw [List.cons_append, e, hq, ih (fun s hs => h s (List.mem_cons_of_mem _ hs))]
    simp [escapedSegment, hq]

theorem escapedSegments_closing (qn : GoString) (ts : List GoString)
    (hp : strings.HasPrefix qn quote = false) (hs : strings.HasSuffix qn quote = true) :
    escapedSegments true (qn :: ts) = qn :: escapedSegments false ts := by
  have hq : runOpen true qn = false := by simp [runOpen, hp, hs]
  simp only [escapedSegments, escapedSegment, hq]
  rfl

theorem escapedSegments_quoted_run (q1 qn : GoString) (mid ts : List GoString)
    (h1 : strings.HasPrefix q1 quote = true)
    (hmid : ∀ q ∈ mid, strings.HasPrefix q quote = false ∧ strings.HasSuffix q quote = false)
    (hnp : strings.HasPrefix qn quote = false) (hns : strings.HasSuffix qn quote = true)
    (hts : ∀ t ∈ ts, strings.HasPrefix t quote = false) :
    escapedSegments false (q1 :: (mid ++ qn :: ts))
      = (q1 ++ backslash) :: (mid.map (fun q => q ++ backslash) ++ qn :: ts) := by
  have hq : runOpen false q1 = true := by simp [runOpen, h1]
  simp only [escapedSegments, escapedSegment, hq]
  rw [escapedSegments_middle mid _ hmid, escapedSegments_closing qn ts hnp hns,
    escapedSegments_plain ts hts]
  rfl

theorem escapedSegments_open (segs : List GoString)
    (h : ∀ s ∈ segs, strings.HasSuffix s quote = true → strings.HasPrefix s quote = true) :
    escapedSegments true segs = segs.map (fun s => s ++ backslash) := by
  induction segs with
  | nil => rfl
  | cons s rest ih =>
    have hs : runOpen true s = true := by
      have := h s (List.mem_cons_self _ _)
      cases hp : strings.HasPrefix s quote <;> cases hx : strings.HasSuffix s quote <;>
        simp [runOpen, hp, hx] at this ⊢
    simp only [escapedSegments, escapedSegment, hs, List.map_cons]
    rw [ih (fun s hs => h s (List.mem_cons_of_mem _ hs))]
    rfl

/-- Joining the segments of a key, each followed by a backslash, gives the key
with a backslash before every dot and one more at the end. -/
theorem Join_map_backslash (k : GoString) :
    strings.Join ((strings.Split k '.').map (fun s => s ++ backslash)) ".".toList
      = strings.Replace k '.' "\\.".toList ++ backslash := by
  induction k with
  | nil => rfl
  | cons c cs ih =>
    unfold strings.Split
    cases hs : strings.Split cs '.' with
    | nil => exact absurd hs (Split_ne_nil cs '.')
    | cons seg segs =>
      rw [hs] at ih
      by_cases hc : c = '.'
      · subst hc
        simp only [if_true, List.map_cons, strings.Join, List.nil_append] at ih ⊢
        rw [ih]
        simp [strings.Replace, List.flatMap_cons, backslash]
      · simp only [hc, if_false, List.map_cons, List.cons_append] at ih ⊢
        rw [Join_cons_cons, ih]
        simp [strings.Replace, List.flatMap_cons, hc]

/-! ## Enumerations of one mapping -/

theorem flatMap_congr_mem {α : Type} (f g : α → List GoString) (l : List α)
    (h : ∀ x ∈ l, f x = g x) : l.flatMap f = l.flatMap g := by
  induction l with
  | nil => rfl
  | cons x xs ih =>
    simp only [List.flatMap_cons]
    rw [h x (List.mem_cons_self _ _), ih (fun y hy => h y (List.mem_cons_of_mem _ hy))]

theorem uniqueKeys_of_perm (m₁ m₂ : GoMap) (hp : m₁.Perm m₂) (hm : UniqueKeys m₁) :
    UniqueKeys m₂ :=
  (hp.map Prod.fst).nodup_iff.mp hm

theorem index_eq_of_perm (m₁ m₂ : GoMap) (hp : m₁.Perm m₂) (hm : UniqueKeys m₁)
    (k : GoString) (hk : k ∈ m₁.keys) : m₁.index k = m₂.index k := by
  obtain ⟨p, hpm, hpk⟩ := List.mem_map.mp hk
  obtain ⟨k2, v⟩ := p
  simp only at hpk
  subst hpk
  rw [index_of_mem m₁ hm k2 v hpm,
    index_of_mem m₂ (uniqueKeys_of_perm m₁ m₂ hp hm) k2 v (hp.mem_iff.mp hpm)]

theorem sort_Strings_of_perm (x y : List GoString) (hp : x.Perm y) :
    sort.Strings x = sort.Strings y :=
  sort_Strings_unique y (sort.Strings x) ((sort_Strings_perm x).trans hp)
    (sort_Strings_sorted x)

theorem setTokens_of_perm (s₁ s₂ : InstallStep) (hp : s₁.Set.Perm s₂.Set)
    (hm : UniqueKeys s₁.Set) : setTokens s₁ = setTokens s₂ := by
  unfold setTokens
  have hk : sort.Strings s₁.Set.keys = sort.Strings s₂.Set.keys :=
    sort_Strings_of_perm _ _ (hp.map Prod.fst)
  rw [← hk]
  apply flatMap_congr_mem
  intro k hkm
  have hmem : k ∈ s₁.Set.keys := (sort_Strings_perm _).mem_iff.mp hkm
  simp only [setPair, index_eq_of_perm s₁.Set s₂.Set hp hm k hmem]

theorem setTokens_length (step : InstallStep) :
    (setTokens step).length = 2 * step.Set.length := by
  unfold setTokens
  have hl : (sort.Strings step.Set.keys).length = step.Set.length := by
    rw [(sort_Strings_perm _).length_eq]
    simp [GoMap.keys]
  rw [← hl]
  generalize sort.Strings step.Set.keys = ks
  induction ks with
  | nil => rfl
  | cons k rest ih =>
    rw [List.flatMap_cons, List.length_append, ih]
    simp only [setPair, List.length_cons, List.length_nil]
    omega

theorem Install_Start_mem (w : World) (cmd : Cmd) (h : Effect.Start cmd ∈ (Install w).1) :
    ∃ payload kubeClient action step,
      w.getPayloadData = .ok payload
        ∧ w.getKubernetesClient kubeConfig = .ok kubeClient
        ∧ w.Unmarshal payload = .ok action
        ∧ action.Steps = [step]
        ∧ cmd = builtCmd w step
        ∧ Install w
            = afterLaunch w kubeClient step (decodeEffects payload ++ launchEffects w step) := by
  cases hp : w.getPayloadData with
  | error err => simp [Install, hp] at h
  | ok payload =>
    cases hc : w.getKubernetesClient kubeConfig with
    | error err => simp [Install, hp, hc] at h
    | ok kubeClient =>
      cases hu : w.Unmarshal payload with
      | error err => simp [Install, hp, hc, hu] at h
      | ok action =>
        by_cases hn : action.Steps.length ≠ 1
        · rw [Install_of_count_ne w payload kubeClient action hp hc hu hn] at h
          simp [decodeEffects] at h
        · have hlen : action.Steps.length = 1 := by omega
          obtain ⟨step, hs⟩ := List.length_eq_one.mp hlen
          have hI := Install_of_single w payload kubeClient action step hp hc hu hs
          refine ⟨payload, kubeClient, action, step, rfl, rfl, hu, hs, ?_, hI⟩
          rw [hI] at h
          unfold afterLaunch at h
          cases h1 : w.Start (builtCmd w step) with
          | some err =>
            simp only [h1] at h
            simpa [decodeEffects, launchEffects] using h
          | none =>
            cases h2 : w.Wait (builtCmd w step) with
            | some err =>
              simp only [h1, h2] at h
              simpa [decodeEffects, launchEffects] using h
            | none =>
              simp only [h1, h2] at h
              simpa [decodeEffects, launchEffects] using h

/-! ## The driver: claims C11 and C14 -/

/-- C11: when the process cannot be started, `Install` returns the error
`could not execute command, <rendered command>: <error>`, the rendered command
being the command path, a space and the arguments joined by spaces; the message
holds the rendered command and the text of the underlying error, and `Install`
neither waits for the process nor collects outputs. -/
theorem Install_launch_failure (w : World) (payload : GoString) (kubeClient : KubeClient)
    (action : InstallAction) (step : InstallStep) (err : GoError)
    (hp : w.getPayloadData = .ok payload)
    (hc : w.getKubernetesClient kubeConfig = .ok kubeClient)
    (hu : w.Unmarshal payload = .ok action) (hs : action.Steps = [step])
    (hstart : w.Start (builtCmd w step) = some err) :
    ∃ msg : GoError,
      Install w
          = ([Effect.getPayloadData, Effect.getKubernetesClient kubeConfig,
              Effect.Unmarshal payload,
              Effect.NewCommand "helm3".toList,
              Effect.Fprintln (prettyCmd (builtCmd w step) ++ "\n".toList),
              Effect.Start (builtCmd w step)],
             some msg)
        ∧ msg = "could not execute command, ".toList
                  ++ ((builtCmd w step).Path ++ " ".toList
                        ++ strings.Join (builtCmd w step).Args " ".toList)
                  ++ ": ".toList ++ err
        ∧ prettyCmd (builtCmd w step) <:+: msg
        ∧ err <:+: msg
        ∧ (∀ c, Effect.Wait c ∉ (Install w).1)
        ∧ (∀ c ns o, Effect.handleOutputs c ns o ∉ (Install w).1) := by
  have hI := Install_of_single w payload kubeClient action step hp hc hu hs
  unfold afterLaunch at hI
  simp only [hstart] at hI
  refine ⟨startError (prettyCmd (builtCmd w step)) err, hI, rfl, ?_, ?_, ?_, ?_⟩
  · exact ⟨"could not execute command, ".toList, ": ".toList ++ err, by
      simp [startError, List.append_assoc]⟩
  · exact (List.suffix_append _ _).isInfix
  · intro c
    rw [hI]
    simp [decodeEffects, launchEffects]
  · intro c ns o
    rw [hI]
    simp [decodeEffects, launchEffects]

/-- The statement of C11 at a run whose process cannot be started. -/
theorem Install_launch_failure_witness :
    ∃ msg : GoError,
      Install launchFailWorld
          = ([Effect.getPayloadData, Effect.getKubernetesClient kubeConfig,
              Effect.Unmarshal "install: ...".toList,
              Effect.NewCommand "helm3".toList,
              Effect.Fprintln (prettyCmd (builtCmd launchFailWorld bareStep) ++ "\n".toList),
              Effect.Start (builtCmd launchFailWorld bareStep)],
             some msg)
        ∧ msg = "could not execute command, ".toList
                  ++ ((builtCmd launchFailWorld bareStep).Path ++ " ".toList
                        ++ strings.Join (builtCmd launchFailWorld bareStep).Args " ".toList)
                  ++ ": ".toList ++ "exec: helm3: executable file not found".toList
        ∧ prettyCmd (builtCmd launchFailWorld bareStep) <:+: msg
        ∧ "exec: helm3: executable file not found".toList <:+: msg
        ∧ (∀ c, Effect.Wait c ∉ (Install launchFailWorld).1)
        ∧ (∀ c ns o, Effect.handleOutputs c ns o ∉ (Install launchFailWorld).1) :=
  Install_launch_failure launchFailWorld "install: ...".toList 0 { Steps := [bareStep] }
    bareStep "exec: helm3: executable file not found".toList rfl rfl rfl rfl rfl

/-- C14: whenever `Install` starts the process, the effect just before the
start is the write of the rendered command line (command path, a space, the
arguments joined by single spaces) followed by a newline, and no start comes
earlier; this holds whether the start fails (nothing follows), the wait fails
(only the wait follows) or the run goes on to collect the outputs. -/
theorem Install_prints_before_start (w : World) (cmd : Cmd)
    (h : Effect.Start cmd ∈ (Install w).1) :
    ∃ pre post : List Effect,
      (Install w).1
          = pre ++ [Effect.Fprintln (cmd.Path ++ " ".toList ++ strings.Join cmd.Args " ".toList
                      ++ "\n".toList),
                    Effect.Start cmd] ++ post
        ∧ (∀ c, Effect.Start c ∉ pre)
        ∧ ((∃ err, w.Start cmd = some err ∧ post = [])
            ∨ (∃ err, w.Start cmd = none ∧ w.Wait cmd = some err ∧ post = [Effect.Wait cmd])
            ∨ (w.Start cmd = none ∧ w.Wait cmd = none
                ∧ ∃ client ns outs,
                    post = [Effect.Wait cmd, Effect.handleOutputs client ns outs])) := by
  obtain ⟨payload, kubeClient, action, step, _, _, _, _, hcmd, hI⟩ := Install_Start_mem w cmd h
  subst hcmd
  refine ⟨decodeEffects payload ++ [Effect.NewCommand "helm3".toList], ?_⟩
  rw [hI]
  unfold afterLaunch
  cases h1 : w.Start (builtCmd w step) with
  | some err =>
    refine ⟨[], ?_, ?_, Or.inl ⟨err, rfl, rfl⟩⟩
    · simp [decodeEffects, launchEffects, prettyCmd]
    · intro c; simp [decodeEffects]
  | none =>
    cases h2 : w.Wait (builtCmd w step) with
    | some err =>
      refine ⟨[Effect.Wait (builtCmd w step)], ?_, ?_, Or.inr (Or.inl ⟨err, rfl, rfl, rfl⟩)⟩
      · simp [decodeEffects, launchEffects, prettyCmd]
      · intro c; simp [decodeEffects]
    | none =>
      refine ⟨[Effect.Wait (builtCmd w step),
        Effect.handleOutputs kubeClient step.Namespace step.Outputs], ?_, ?_,
        Or.inr (Or.inr ⟨rfl, rfl, _, _, _, rfl⟩)⟩
      · simp [decodeEffects, launchEffects, prettyCmd]
      · intro c; simp [decodeEffects]

/-- The statement of C14 at a run whose process exits with status 1: the line
`helm3 helm3 install myrelease mychart` is written just before the start. -/
theorem Install_prints_before_start_witness :
    Effect.Start (builtCmd exitWorld bareStep) ∈ (Install exitWorld).1
      ∧ ∃ pre post : List Effect,
          (Install exitWorld).1
              = pre ++ [Effect.Fprintln ((builtCmd exitWorld bareStep).Path ++ " ".toList
                          ++ strings.Join (builtCmd exitWorld bareStep).Args " ".toList
                          ++ "\n".toList),
                        Effect.Start (builtCmd exitWorld bareStep)] ++ post
            ∧ (∀ c, Effect.Start c ∉ pre)
            ∧ ((∃ err, exitWorld.Start (builtCmd exitWorld bareStep) = some err ∧ post = [])
                ∨ (∃ err, exitWorld.Start (builtCmd exitWorld bareStep) = none
                    ∧ exitWorld.Wait (builtCmd exitWorld bareStep) = some err
                    ∧ post = [Effect.Wait (builtCmd exitWorld bareStep)])
                ∨ (exitWorld.Start (builtCmd exitWorld bareStep) = none
                    ∧ exitWorld.Wait (builtCmd exitWorld bareStep) = none
                    ∧ ∃ client ns outs,
                        post = [Effect.Wait (builtCmd exitWorld bareStep),
                                Effect.handleOutputs client ns outs])) :=
  ⟨by decide, Install_prints_before_start exitWorld (builtCmd exitWorld bareStep) (by decide)⟩

/-! ## The overrides and the key escaper: claims C12, C13 and C15 to C19 -/

/-- C12: two enumerations of one override mapping with pairwise distinct keys
give the same list: `HandleSettingChartValuesForInstall` returns identical
tokens for both, and so does the whole argument builder. -/
theorem HandleSetting_enumeration_independent (step : InstallStep) (cmd : Cmd)
    (m₁ m₂ : GoMap) (hp : m₁.Perm m₂) (hm : UniqueKeys m₁) :
    HandleSettingChartValuesForInstall { step with Set := m₁ } cmd
        = HandleSettingChartValuesForInstall { step with Set := m₂ } cmd
      ∧ installArgs { step with Set := m₁ } cmd = installArgs { step with Set := m₂ } cmd := by
  have hset : setTokens { step with Set := m₁ } = setTokens { step with Set := m₂ } :=
    setTokens_of_perm _ _ hp hm
  constructor
  · rw [handleSetting_eq, handleSetting_eq]
    exact congrArg (fun l => cmd.Args ++ l) hset
  · rw [installArgs_eq, installArgs_eq]
    exact congrArg
      (fun l => cmd.Args ++ verbTokens step ++ flagTokens step
        ++ step.Values.flatMap (fun v => ["--values".toList, v]) ++ l) hset

/-- The statement of C12 at the two enumerations of the overrides of `fullStep`. -/
theorem HandleSetting_enumeration_independent_witness :
    fullStep.Set.Perm fullStepSetAscending ∧ UniqueKeys fullStep.Set
      ∧ HandleSettingChartValuesForInstall { fullStep with Set := fullStep.Set } helmCmd
          = HandleSettingChartValuesForInstall { fullStep with Set := fullStepSetAscending }
              helmCmd
      ∧ installArgs { fullStep with Set := fullStep.Set } helmCmd
          = installArgs { fullStep with Set := fullStepSetAscending } helmCmd :=
  ⟨by decide, by decide,
    HandleSetting_enumeration_independent fullStep helmCmd fullStep.Set fullStepSetAscending
      (by decide) (by decide)⟩

/-- C13, evaluated where it fails: in the key `"a".b` the first segment opens
and closes the quotes, yet the escaper treats it as the start of a run that is
still open: the dot after it is escaped and the segment `b` gets a backslash,
so the pair emitted for the value `v` is `--set "a"\.b\=v`. -/
theorem escapeKey_self_closed_segment :
    escapeKey selfClosedKey = "\"a\"\\.b\\".toList
      ∧ escapeKey selfClosedKey ≠ selfClosedKey
      ∧ HandleSettingChartValuesForInstall
          { bareStep with Set := [(selfClosedKey, "v".toList)] } { helmCmd with Args := [] }
          = ["--set".toList, "\"a\"\\.b\\=v".toList] := by
  decide

/-- C15: for a key made of the segments `q1, q2, ..., qn, t1, ..., tm` (none
holding a dot) where `q1` begins with a quote, the middle segments neither begin
nor end with one, `qn` ends with a quote and does not begin with one, and no
`t` begins with one, the escaped key is the join by dots of `q1\`, `q2\`, ...,
the unchanged `qn` and the unchanged `t1, ..., tm`: the dots of the quoted run
are preceded by a backslash and no other dot is. -/
theorem escapeKey_quoted_run (q1 qn : GoString) (mid ts : List GoString)
    (hdot : ∀ s ∈ q1 :: (mid ++ qn :: ts), '.' ∉ s)
    (h1 : strings.HasPrefix q1 quote = true)
    (hmid : ∀ q ∈ mid, strings.HasPrefix q quote = false ∧ strings.HasSuffix q quote = false)
    (hnp : strings.HasPrefix qn quote = false) (hns : strings.HasSuffix qn quote = true)
    (hts : ∀ t ∈ ts, strings.HasPrefix t quote = false) :
    escapeKey (strings.Join (q1 :: (mid ++ qn :: ts)) ".".toList)
      = strings.Join ((q1 ++ backslash) :: (mid.map (fun q => q ++ backslash) ++ qn :: ts))
          ".".toList := by
  have e : (".".toList : GoString) = ['.'] := rfl
  rw [escapeKey_eq, e, Split_Join _ '.' (by simp) hdot,
    escapedSegments_quoted_run q1 qn mid ts h1 hmid hnp hns hts]

/-- The statement of C15 at the key `"a.b.c".d.e`, escaped to `"a\.b\.c".d.e`. -/
theorem escapeKey_quoted_run_witness :
    escapeKey "\"a.b.c\".d.e".toList = "\"a\\.b\\.c\".d.e".toList :=
  escapeKey_quoted_run "\"a".toList "c\"".toList ["b".toList] ["d".toList, "e".toList]
    (by decide) (by decide) (by decide) (by decide) (by decide) (by decide)

/-- C16: for a key whose first segment begins with a quote and in which every
segment that ends with a quote also begins with one, every segment, the last
one included, is emitted with a backslash appended: the escaped key is the key
with every dot replaced by a backslash and a dot, followed by one backslash. -/
theorem escapeKey_unterminated (k s : GoString) (rest : List GoString)
    (hsplit : strings.Split k '.' = s :: rest)
    (h1 : strings.HasPrefix s quote = true)
    (h : ∀ seg ∈ strings.Split k '.',
      strings.HasSuffix seg quote = true → strings.HasPrefix seg quote = true) :
    escapeKey k
        = strings.Join ((strings.Split k '.').map (fun seg => seg ++ backslash)) ".".toList
      ∧ escapeKey k = strings.Replace k '.' "\\.".toList ++ backslash := by
  have hseg : escapedSegments false (strings.Split k '.')
      = (strings.Split k '.').map (fun seg => seg ++ backslash) := by
    have hrest : ∀ seg ∈ rest,
        strings.HasSuffix seg quote = true → strings.HasPrefix seg quote = true :=
      fun seg hs => h seg (by rw [hsplit]; exact List.mem_cons_of_mem _ hs)
    have hq : runOpen false s = true := by simp [runOpen, h1]
    rw [hsplit]
    simp only [escapedSegments, escapedSegment, hq, List.map_cons]
    rw [escapedSegments_open rest hrest]
    rfl
  have e1 : escapeKey k
      = strings.Join ((strings.Split k '.').map (fun seg => seg ++ backslash)) ".".toList := by
    rw [escapeKey_eq, hseg]
  exact ⟨e1, e1.trans (Join_map_backslash k)⟩

/-- The statement of C16 at the key `"a.b.c` of the spec, escaped to
`"a\.b\.c\`. -/
theorem escapeKey_unterminated_witness :
    escapeKey openQuoteKey = "\"a\\.b\\.c\\".toList :=
  (escapeKey_unterminated openQuoteKey "\"a".toList ["b".toList, "c".toList]
    (by decide) (by decide) (by decide)).2

/-- C17: the key escaper is injective: two distinct override keys have distinct
escaped keys. -/
theorem escapeKey_injective (k₁ k₂ : GoString) (h : k₁ ≠ k₂) :
    escapeKey k₁ ≠ escapeKey k₂ :=
  fun e => h (escapeKey_inj k₁ k₂ e)

/-- The statement of C17 at the keys `"a` and `"a\`, escaped to `"a\` and
`"a\\`. -/
theorem escapeKey_injective_witness :
    "\"a".toList ≠ "\"a\\".toList ∧ escapeKey "\"a".toList ≠ escapeKey "\"a\\".toList :=
  ⟨by decide, escapeKey_injective "\"a".toList "\"a\\".toList (by decide)⟩

/-- C18: the escaped key has as many dot-separated segments as the key, and
each of its segments is the corresponding segment of the key, unchanged or
followed by one backslash; the key is a subsequence of the escaped key, and the
two agree once their backslashes are removed. -/
theorem escapeKey_segments (k : GoString) :
    (strings.Split (escapeKey k) '.').length = (strings.Split k '.').length
      ∧ List.Forall₂ (fun s o => o = s ∨ o = s ++ backslash)
          (strings.Split k '.') (strings.Split (escapeKey k) '.')
      ∧ k.Sublist (escapeKey k)
      ∧ (escapeKey k).filter (fun c => c != '\\') = k.filter (fun c => c != '\\') := by
  rw [Split_escapeKey]
  exact ⟨escapedSegments_length _ _, escapedSegments_forall₂ _ _, escapeKey_sublist k,
    escapeKey_filter k⟩

/-- C19: what `HandleSettingChartValuesForInstall` returns is the incoming
argument list followed by exactly two tokens per override key; for an empty
mapping it is the incoming list. -/
theorem HandleSetting_frame (step : InstallStep) (cmd : Cmd) :
    ∃ added : List GoString,
      HandleSettingChartValuesForInstall step cmd = cmd.Args ++ added
        ∧ added.length = 2 * step.Set.keys.length
        ∧ (step.Set = [] → HandleSettingChartValuesForInstall step cmd = cmd.Args) := by
  refine ⟨setTokens step, handleSetting_eq step cmd, ?_, ?_⟩
  · rw [setTokens_length]
    simp [GoMap.keys]
  · intro h
    rw [handleSetting_eq, h]
    simp [GoMap.keys, sort.Strings]

end Helm3
